import Mathlib

/-!
Shallow embedding of `main.py` of simple-versioning: a utility that scans the
existing git tag names, parses those matching a fixed leading/trailing affix
convention as semantic versions (via the python `semver` library), filters them
by an optional major/minor filter, selects the next version, renders its tag
name, and (unless running in dry-run mode) checks for a name collision before
creating and pushing the tag.

Strings are modelled as `List Char`; the git repository is modelled by the
list of its tag names (`find_previous_versions` iterates `repo.references`
and only looks at `TagReference`s, so the model's input is the list of tag
reference names).  Python sets are modelled as duplicate-free lists built by
`insertU` (insertion order retained; python's set iteration order is
unspecified, but no observable output below depends on it).  All functions are
computable so that concrete runs evaluate by `decide`.
-/

namespace SV

/-- Python set `add`: insert an element unless an equal one is present. -/
def insertU {α : Type} [DecidableEq α] (l : List α) (x : α) : List α :=
  if x ∈ l then l else l ++ [x]

/-- Python `str.replace(pat, '')` with explicit fuel (the input shrinks at
every step, so any fuel above the input's length computes it; the fuel only
makes the recursion structural so that the kernel evaluates it). -/
def removeAllAux : Nat → List Char → List Char → List Char
  | 0, _, _ => []
  | _ + 1, _, [] => []
  | fuel + 1, pat, c :: rest =>
    if pat ≠ [] ∧ pat.isPrefixOf (c :: rest) = true then
      removeAllAux fuel pat ((c :: rest).drop pat.length)
    else
      c :: removeAllAux fuel pat rest

/-- Python `str.replace(pat, '')`: delete every occurrence of `pat`, scanning
left to right, non-overlapping.  An empty pattern deletes nothing (in python,
replacing the empty string by the empty string is the identity). -/
def removeAll (pat s : List Char) : List Char :=
  removeAllAux (s.length + 1) pat s

/-- Python `str.strip()`: drop leading and trailing whitespace. -/
def pyStrip (s : List Char) : List Char :=
  ((s.dropWhile Char.isWhitespace).reverse.dropWhile Char.isWhitespace).reverse

/-- The part of `s` before the first occurrence of `sep`, and, when `sep`
occurs, the part after it. -/
def splitFirst (sep : Char) : List Char → List Char × Option (List Char)
  | [] => ([], none)
  | c :: rest =>
    if c = sep then ([], some rest)
    else
      let r := splitFirst sep rest
      (c :: r.1, r.2)

/-- Python `str.split(sep)` for a one-character separator: the (possibly
empty) pieces between the occurrences of `sep`. -/
def splitOnChar (sep : Char) : List Char → List (List Char)
  | [] => [[]]
  | c :: rest =>
    if c = sep then [] :: splitOnChar sep rest
    else
      match splitOnChar sep rest with
      | [] => [[c]]
      | p :: ps => (c :: p) :: ps

/-- The number denoted by a digit string, most significant digit first
(python `int(...)` on a digit string). -/
def digitsVal (s : List Char) : Nat :=
  s.foldl (fun a c => 10 * a + (c.toNat - 48)) 0

/-- The character of one decimal digit. -/
def digitChar10 (d : Nat) : Char := Char.ofNat (48 + d)

/-- Decimal digits of `n`, most significant first, with explicit fuel so that
the kernel evaluates it.  `natChars` below supplies enough fuel. -/
def natCharsAux : Nat → Nat → List Char
  | 0, _ => []
  | fuel + 1, n =>
    if n = 0 then [] else natCharsAux fuel (n / 10) ++ [digitChar10 (n % 10)]

/-- Python decimal formatting of a natural number (`f-string` of an `int`). -/
def natChars (n : Nat) : List Char :=
  if n = 0 then ['0'] else natCharsAux (n + 1) n

/-- The semver grammar's numeric component: `0 | [1-9][0-9]*` (digits, no
leading zero). -/
def numPartOk (s : List Char) : Bool :=
  !s.isEmpty && s.all Char.isDigit && (!(s.head? == some '0') || s == ['0'])

/-- A character allowed in semver prerelease / build identifiers:
`[0-9A-Za-z-]`. -/
def identCh (c : Char) : Bool := c.isAlphanum || c == '-'

/-- One prerelease identifier: `0 | [1-9][0-9]* | [0-9]*[A-Za-z-][0-9A-Za-z-]*`
(nonempty; purely numeric identifiers carry no leading zero). -/
def preIdentOk (s : List Char) : Bool :=
  !s.isEmpty && s.all identCh && (!(s.all Char.isDigit) || numPartOk s)

/-- One build identifier: nonempty, characters `[0-9A-Za-z-]`. -/
def buildIdentOk (s : List Char) : Bool :=
  !s.isEmpty && s.all identCh

/-- A parsed semantic version as the `semver` library stores it: integer
major, minor, patch and the optional raw prerelease string.  Build metadata
is recognised by `Version.parse` but not stored: the library ignores it in
comparison, equality and hashing, so it never influences the set of previous
versions, the maximum, or any rendered output (every rendered version is
built by a constructor that carries no prerelease or build). -/
structure Version where
  major : Nat
  minor : Nat
  patch : Nat
  prerelease : Option (List Char) := none
deriving DecidableEq

/-- `semver.Version.parse` (main.py line 22): the anchored semver regex
`major.minor.patch` with optional `-prerelease` and `+build`.  The core
components are digit runs without leading zeros; since they contain no `-`
or `+`, the string splits unambiguously at its first `+` (start of build)
and, before that, at its first `-` (start of prerelease). -/
def Version.parse (s : List Char) : Option Version :=
  let bp := splitFirst '+' s
  let cp := splitFirst '-' bp.1
  match splitOnChar '.' cp.1 with
  | [a, b, c] =>
    if numPartOk a && numPartOk b && numPartOk c
        && (match cp.2 with
            | none => true
            | some p => (splitOnChar '.' p).all preIdentOk)
        && (match bp.2 with
            | none => true
            | some bd => (splitOnChar '.' bd).all buildIdentOk) then
      some ⟨digitsVal a, digitsVal b, digitsVal c, cp.2⟩
    else none
  | _ => none

/-- Three-way comparison of naturals (python `cmp`). -/
def cmpN (a b : Nat) : Ordering :=
  if a < b then .lt else if b < a then .gt else .eq

/-- Python tuple comparison of `(major, minor, patch)` — the first step of
`semver`'s `compare`. -/
def cmpCore (a b : Version) : Ordering :=
  if a.major < b.major then .lt else if b.major < a.major then .gt
  else if a.minor < b.minor then .lt else if b.minor < a.minor then .gt
  else if a.patch < b.patch then .lt else if b.patch < a.patch then .gt
  else .eq

/-- Python string comparison: lexicographic on code points. -/
def cmpChars : List Char → List Char → Ordering
  | [], [] => .eq
  | [], _ :: _ => .lt
  | _ :: _, [] => .gt
  | a :: as, b :: bs =>
    match cmpN a.toNat b.toNat with
    | .eq => cmpChars as bs
    | o => o

/-- `semver`'s comparison of one prerelease identifier pair: two numeric
identifiers compare as integers, a numeric identifier is below an
alphanumeric one, two alphanumeric ones compare as strings. -/
def cmpPrePart (a b : List Char) : Ordering :=
  if !a.isEmpty && a.all Char.isDigit then
    if !b.isEmpty && b.all Char.isDigit then cmpN (digitsVal a) (digitsVal b)
    else .lt
  else if !b.isEmpty && b.all Char.isDigit then .gt
  else cmpChars a b

/-- Pairwise comparison of the zipped identifier lists (`semver._nat_cmp`'s
loop): stops at the first unequal pair, `eq` past the shorter list. -/
def natCmpParts : List (List Char) → List (List Char) → Ordering
  | x :: xs, y :: ys =>
    match cmpPrePart x y with
    | .eq => natCmpParts xs ys
    | o => o
  | _, _ => .eq

/-- `semver._nat_cmp` on two prerelease strings: compare the `.`-separated
identifiers pairwise, then fall back to comparing the raw string lengths. -/
def natCmp (a b : List Char) : Ordering :=
  match natCmpParts (splitOnChar '.' a) (splitOnChar '.' b) with
  | .eq => cmpN a.length b.length
  | o => o

/-- `semver.Version.compare`: `(major, minor, patch)` tuples first; on a tie
a version without prerelease is above one with, and two prereleases compare
by `natCmp`.  (Build metadata is ignored; a parsed prerelease is never the
empty string, so python's truthiness test coincides with presence.) -/
def Version.cmp (a b : Version) : Ordering :=
  match cmpCore a b with
  | .eq =>
    match a.prerelease, b.prerelease with
    | none, none => .eq
    | some p, some q => natCmp p q
    | some _, none => .lt
    | none, some _ => .gt
  | o => o

/-- Python `max` over the versions in iteration order: keep the current
element unless a strictly greater one appears. -/
def maxVersion : List Version → Option Version
  | [] => none
  | v :: vs =>
    some (vs.foldl (fun best x => if Version.cmp x best = .gt then x else best) v)

/-- `semver.Version.bump_patch` (main.py line 100): a new version with the
patch raised by one; prerelease (and build) are not carried over. -/
def Version.bump_patch (v : Version) : Version :=
  ⟨v.major, v.minor, v.patch + 1, none⟩

/-- `str(semver.Version)`: `major.minor.patch`, then `-prerelease` when one
is present (build is not stored, and no rendered version carries one). -/
def Version.str (v : Version) : List Char :=
  natChars v.major ++ '.' :: natChars v.minor ++ '.' :: natChars v.patch ++
    (match v.prerelease with
     | none => []
     | some p => '-' :: p)

/-- The extraction of main.py line 20:
`ref_name.replace(version_prefix, '').replace(version_suffix, '')` — note
that python's `replace` deletes every occurrence, not only the leading /
trailing one. -/
def extract_version (ref_name vpre vsuf : List Char) : List Char :=
  removeAll vsuf (removeAll vpre ref_name)

/-- Modelled from the spec's words (Step 1 — Parse: "strip both"): the
remainder obtained by stripping exactly the leading affix and the trailing
affix, removing no other characters.  Used only to compare the spec's
description of the extraction with `extract_version`, the code's. -/
def strip_exact (ref_name vpre vsuf : List Char) : List Char :=
  ((ref_name.drop vpre.length).take ((ref_name.drop vpre.length).length - vsuf.length))

/-- Loop body of `find_previous_versions` (main.py lines 14-27) for one tag
reference: record the raw name, and when the name starts with the leading
affix and ends with the trailing one, parse the extracted remainder — on
success add the version to the set, on failure only log a warning and move
on. -/
def fpv_step (vpre vsuf : List Char) (acc : List Version × List (List Char))
    (ref_name : List Char) : List Version × List (List Char) :=
  let all := insertU acc.2 ref_name
  if vpre.isPrefixOf ref_name && vsuf.isSuffixOf ref_name then
    match Version.parse (extract_version ref_name vpre vsuf) with
    | none => (acc.1, all)
    | some v => (insertU acc.1 v, all)
  else (acc.1, all)

/-- `find_previous_versions` (main.py lines 8-28) on the repository's tag
names: the set of parsed previous versions and the raw set of all tag
names. -/
def find_previous_versions (tags : List (List Char)) (vpre vsuf : List Char) :
    List Version × List (List Char) :=
  tags.foldl (fpv_step vpre vsuf) ([], [])

/-- `filter_versions` (main.py lines 30-41): no major filter keeps the whole
set; with one, keep the versions of that major and, when a minor filter is
also given, of that minor. -/
def filter_versions (versions : List Version) (fmaj fmin : Option Nat) :
    List Version :=
  match fmaj with
  | none => versions
  | some mj =>
    versions.filter (fun v =>
      v.major == mj &&
        (match fmin with
         | none => true
         | some mn => v.minor == mn))

/-- `generate_version_name` (main.py lines 55-59): with the patch override on
and a patch argument that is not `None` and not whitespace-only, render
`affix + major + "." + minor + "-SNAPSHOT" + affix`; otherwise
`affix + str(version) + affix`. -/
def generate_version_name (increased_version : Version) (vpre vsuf : List Char)
    (override_patch_version : Bool) (patch_version : Option (List Char)) :
    List Char :=
  if override_patch_version &&
      (match patch_version with
       | none => false
       | some p => !(pyStrip p).isEmpty) then
    vpre ++ natChars increased_version.major ++ '.' ::
      natChars increased_version.minor ++ ("-SNAPSHOT").toList ++ vsuf
  else
    vpre ++ increased_version.str ++ vsuf

/-- The selection of main.py lines 84-100: no parsed versions at all gives
`1.0.0`; a nonempty set with an empty filtered set starts the requested line
at `filter_major.(filter_minor or 0).0` (python truthiness: a minor filter of
`0` also gives `0`; the major filter is necessarily set in that branch, since
without one the filtered set equals the full nonempty set — `getD 0` is the
unreachable `None` default); otherwise bump the patch of the maximum filtered
version. -/
def select_increased_version (versions filtered : List Version)
    (fmaj fmin : Option Nat) : Version :=
  if versions.isEmpty then ⟨1, 0, 0, none⟩
  else if filtered.isEmpty then
    ⟨fmaj.getD 0,
     (match fmin with
      | none => 0
      | some k => if k = 0 then 0 else k),
     0, none⟩
  else
    match maxVersion filtered with
    | some m => m.bump_patch
    | none => ⟨1, 0, 0, none⟩

/-- The tag name main.py computes at line 105: select the increased version
and render it, passing the literal `"SNAPSHOT"` as the patch argument. -/
def computed_tag_name (tags : List (List Char)) (vpre vsuf : List Char)
    (fmaj fmin : Option Nat) (create_snapshot_version : Bool) : List Char :=
  let versions := (find_previous_versions tags vpre vsuf).1
  let filtered := filter_versions versions fmaj fmin
  generate_version_name (select_increased_version versions filtered fmaj fmin)
    vpre vsuf create_snapshot_version (some (("SNAPSHOT").toList))

/-- The externally observable outcome of one invocation: the process exit
code, the line printed to standard output (none when `sys.exit(1)` fires
before the print), the tag created in the repository, whether a push to the
remotes was attempted, and whether an error was written to standard error. -/
structure RunResult where
  exitCode : Nat
  stdoutLine : Option (List Char)
  createdTag : Option (List Char)
  pushed : Bool
  errorLogged : Bool
deriving DecidableEq

/-- `calculate_new_version` (main.py lines 72-115), given the repository's
tag names: compute the new tag name; unless `create_no_git_tag` is set,
fail with exit code 1 (logging the collision to standard error, creating and
pushing nothing, printing nothing) when the name is already among the raw tag
names, and otherwise create the tag and push it; finally print the name.
(Fetching/pulling the remotes and the logging verbosity are I/O details with
no bearing on the outcome fields and are not modelled.) -/
def calculate_new_version (tags : List (List Char)) (vpre vsuf : List Char)
    (fmaj fmin : Option Nat) (create_no_git_tag create_snapshot_version : Bool) :
    RunResult :=
  let name := computed_tag_name tags vpre vsuf fmaj fmin create_snapshot_version
  let all_git_tags := (find_previous_versions tags vpre vsuf).2
  if !create_no_git_tag then
    if name ∈ all_git_tags then
      { exitCode := 1, stdoutLine := none, createdTag := none,
        pushed := false, errorLogged := true }
    else
      { exitCode := 0, stdoutLine := some name, createdTag := some name,
        pushed := true, errorLogged := false }
  else
    { exitCode := 0, stdoutLine := some name, createdTag := none,
      pushed := false, errorLogged := false }

/-- The `(major, minor, patch)` lexicographic order the spec's total order
names (prerelease disregarded). -/
def mnpLE (a b : Version) : Prop :=
  a.major < b.major ∨
    (a.major = b.major ∧
      (a.minor < b.minor ∨ (a.minor = b.minor ∧ a.patch ≤ b.patch)))

/-! ### Set-insertion and `replace` lemmas -/

theorem mem_insertU {α : Type} [DecidableEq α] {l : List α} {x y : α} :
    y ∈ insertU l x ↔ y ∈ l ∨ y = x := by
  unfold insertU
  split
  · constructor
    · exact fun h => Or.inl h
    · rintro (h | rfl)
      · exact h
      · assumption
  · simp [or_comm]

theorem removeAllAux_congr : ∀ f g : Nat, ∀ pat s : List Char,
    s.length < f → s.length < g → removeAllAux f pat s = removeAllAux g pat s := by
  intro f
  induction f with
  | zero => intro g pat s hf; omega
  | succ f ih =>
    intro g pat s hf hg
    match g with
    | 0 => omega
    | g + 1 =>
      match s with
      | [] => rfl
      | c :: rest =>
        show (if pat ≠ [] ∧ pat.isPrefixOf (c :: rest) = true then
            removeAllAux f pat ((c :: rest).drop pat.length)
          else c :: removeAllAux f pat rest) =
          (if pat ≠ [] ∧ pat.isPrefixOf (c :: rest) = true then
            removeAllAux g pat ((c :: rest).drop pat.length)
          else c :: removeAllAux g pat rest)
        split
        case isTrue h =>
          have hp := List.length_pos.mpr h.1
          apply ih
          · simp only [List.length_drop, List.length_cons] at *
            omega
          · simp only [List.length_drop, List.length_cons] at *
            omega
        case isFalse h =>
          simp only [List.length_cons] at hf hg
          rw [ih g pat rest (by omega) (by omega)]

/-- The one-step unfolding of `removeAll`, with the wrapper's fuel hidden. -/
theorem removeAll_cons (pat : List Char) (c : Char) (rest : List Char) :
    removeAll pat (c :: rest) =
      if pat ≠ [] ∧ pat.isPrefixOf (c :: rest) = true then
        removeAll pat ((c :: rest).drop pat.length)
      else
        c :: removeAll pat rest := by
  show removeAllAux ((c :: rest).length + 1) pat (c :: rest) = _
  rw [show (c :: rest).length + 1 = rest.length + 1 + 1 by simp]
  show (if pat ≠ [] ∧ pat.isPrefixOf (c :: rest) = true then
      removeAllAux (rest.length + 1) pat ((c :: rest).drop pat.length)
    else c :: removeAllAux (rest.length + 1) pat rest) = _
  split
  case isTrue h =>
    have hp := List.length_pos.mpr h.1
    apply removeAllAux_congr
    · simp only [List.length_drop, List.length_cons]
      omega
    · simp only [List.length_drop]
      omega
  case isFalse h => rfl

theorem removeAll_nil (pat : List Char) : removeAll pat [] = [] := rfl

theorem removeAll_nil_pat (s : List Char) : removeAll [] s = s := by
  induction s with
  | nil => rfl
  | cons c rest ih => rw [removeAll_cons]; simp [ih]

/-- Deleting all occurrences of a nonempty `pat` from `pat ++ t` starts by
deleting the leading occurrence. -/
theorem removeAll_self_append (pat t : List Char) (h : pat ≠ []) :
    removeAll pat (pat ++ t) = removeAll pat t := by
  match pat, h with
  | p :: ps, _ =>
    rw [List.cons_append, removeAll_cons]
    rw [if_pos]
    · congr 1
      rw [← List.cons_append, List.drop_left]
    · refine ⟨by simp, ?_⟩
      rw [List.isPrefixOf_iff_prefix, ← List.cons_append]
      exact List.prefix_append (p :: ps) t

/-- A string that avoids `pat`'s first character contains no occurrence of
`pat`, so deleting occurrences leaves it unchanged. -/
theorem removeAll_no_head (p : Char) (ps s : List Char) (h : p ∉ s) :
    removeAll (p :: ps) s = s := by
  induction s with
  | nil => rfl
  | cons c rest ih =>
    rw [removeAll_cons, if_neg]
    · rw [ih (fun hm => h (List.mem_cons_of_mem c hm))]
    · rintro ⟨-, hpre⟩
      rw [List.isPrefixOf_iff_prefix, List.cons_prefix_cons] at hpre
      exact h (hpre.1 ▸ List.mem_cons_self c rest)

/-- With a trailing occurrence of `pat` and no occurrence starting earlier
(its first character avoids `s`), the deletion removes exactly the tail. -/
theorem removeAll_append_self (p : Char) (ps s : List Char) (h : p ∉ s) :
    removeAll (p :: ps) (s ++ p :: ps) = s := by
  induction s with
  | nil =>
    have h0 : removeAll (p :: ps) ((p :: ps) ++ []) = removeAll (p :: ps) [] :=
      removeAll_self_append _ _ (by simp)
    simpa using h0
  | cons c rest ih =>
    rw [List.cons_append, removeAll_cons, if_neg]
    · rw [ih (fun hm => h (List.mem_cons_of_mem c hm))]
    · rintro ⟨-, hpre⟩
      rw [List.isPrefixOf_iff_prefix, List.cons_prefix_cons] at hpre
      exact h (hpre.1 ▸ List.mem_cons_self c rest)

/-- When the leading affix's first character occurs nowhere in `mid ++ vsuf`
and the trailing affix's first character occurs nowhere in `mid`, the code's
`replace`-based extraction of `vpre ++ mid ++ vsuf` returns exactly `mid`. -/
theorem extract_version_append (vpre mid vsuf : List Char)
    (h1 : ∀ c ∈ vpre.take 1, c ∉ mid ++ vsuf)
    (h2 : ∀ c ∈ vsuf.take 1, c ∉ mid) :
    extract_version (vpre ++ mid ++ vsuf) vpre vsuf = mid := by
  unfold extract_version
  have step1 : removeAll vpre (vpre ++ mid ++ vsuf) = mid ++ vsuf := by
    match vpre with
    | [] => rw [List.nil_append, removeAll_nil_pat]
    | p :: ps =>
      rw [List.append_assoc, removeAll_self_append _ _ (by simp)]
      exact removeAll_no_head p ps _ (h1 p (by simp))
  rw [step1]
  match vsuf with
  | [] => rw [List.append_nil, removeAll_nil_pat]
  | q :: qs => exact removeAll_append_self q qs mid (h2 q (by simp))

/-- The spec's exact stripping of `vpre ++ mid ++ vsuf` returns `mid`. -/
theorem strip_exact_append (vpre mid vsuf : List Char) :
    strip_exact (vpre ++ mid ++ vsuf) vpre vsuf = mid := by
  unfold strip_exact
  rw [List.append_assoc, List.drop_left, List.length_append]
  simp

/-! ### Splitting lemmas -/

theorem splitFirst_not_mem (sep : Char) (s : List Char) (h : sep ∉ s) :
    splitFirst sep s = (s, none) := by
  induction s with
  | nil => rfl
  | cons c rest ih =>
    simp only [splitFirst]
    rw [if_neg (fun hc => h (List.mem_cons.mpr (Or.inl hc.symm)))]
    rw [ih (fun hm => h (List.mem_cons_of_mem c hm))]

theorem splitOnChar_not_mem (sep : Char) (a : List Char) (h : sep ∉ a) :
    splitOnChar sep a = [a] := by
  induction a with
  | nil => rfl
  | cons c rest ih =>
    simp only [splitOnChar]
    rw [if_neg (fun hc => h (List.mem_cons.mpr (Or.inl hc.symm)))]
    rw [ih (fun hm => h (List.mem_cons_of_mem c hm))]

theorem splitOnChar_append (sep : Char) (a rest : List Char) (h : sep ∉ a) :
    splitOnChar sep (a ++ sep :: rest) = a :: splitOnChar sep rest := by
  induction a with
  | nil =>
    simp only [List.nil_append, splitOnChar, if_pos]
  | cons c a ih =>
    simp only [List.cons_append, splitOnChar, List.append_eq]
    rw [if_neg (fun hc => h (List.mem_cons.mpr (Or.inl hc.symm)))]
    rw [ih (fun hm => h (List.mem_cons_of_mem c hm))]

/-! ### Decimal rendering and its parse -/

theorem digitChar10_toNat {d : Nat} (h : d < 10) :
    (digitChar10 d).toNat = 48 + d := by
  interval_cases d <;> decide

theorem digitChar10_isDigit {d : Nat} (h : d < 10) :
    (digitChar10 d).isDigit = true := by
  interval_cases d <;> decide

theorem digitChar10_ne_zero {d : Nat} (h : d < 10) (h0 : d ≠ 0) :
    digitChar10 d ≠ '0' := by
  interval_cases d
  · exact absurd rfl h0
  all_goals decide

theorem isDigit_ne_marks (c : Char) (h : c.isDigit = true) :
    c ≠ '.' ∧ c ≠ '-' ∧ c ≠ '+' := by
  refine ⟨?_, ?_, ?_⟩ <;> rintro rfl <;> exact absurd h (by decide)

theorem natCharsAux_eq : ∀ fuel n : Nat, n < fuel →
    natCharsAux fuel n = ((Nat.digits 10 n).map digitChar10).reverse := by
  intro fuel
  induction fuel with
  | zero => intro n h; omega
  | succ fuel ih =>
    intro n h
    by_cases hn : n = 0
    · subst hn
      simp [natCharsAux]
    · have hstep : Nat.digits 10 n = n % 10 :: Nat.digits 10 (n / 10) :=
        Nat.digits_def' (by norm_num) (Nat.pos_of_ne_zero hn)
      have hdiv : n / 10 < fuel := by
        have := Nat.div_lt_self (Nat.pos_of_ne_zero hn) (by norm_num : 1 < 10)
        omega
      simp only [natCharsAux, if_neg hn, hstep, List.map_cons, List.reverse_cons]
      rw [ih (n / 10) hdiv]

theorem natChars_eq (n : Nat) (hn : n ≠ 0) :
    natChars n = ((Nat.digits 10 n).map digitChar10).reverse := by
  rw [natChars, if_neg hn]
  exact natCharsAux_eq (n + 1) n (by omega)

theorem mem_natChars_isDigit (n : Nat) : ∀ c ∈ natChars n, c.isDigit = true := by
  by_cases hn : n = 0
  · subst hn; intro c hc; simp [natChars] at hc; subst hc; decide
  · rw [natChars_eq n hn]
    intro c hc
    rw [List.mem_reverse, List.mem_map] at hc
    obtain ⟨d, hd, rfl⟩ := hc
    exact digitChar10_isDigit (Nat.digits_lt_base (by norm_num) hd)

theorem natChars_ne_nil (n : Nat) : natChars n ≠ [] := by
  by_cases hn : n = 0
  · subst hn; decide
  · rw [natChars_eq n hn]
    simp [Nat.digits_ne_nil_iff_ne_zero.mpr hn]

theorem natChars_head_ne_zero (n : Nat) (hn : n ≠ 0) :
    ¬((natChars n).head? = some '0') := by
  have hd : Nat.digits 10 n ≠ [] := Nat.digits_ne_nil_iff_ne_zero.mpr hn
  rw [natChars_eq n hn, List.head?_reverse, List.getLast?_map,
    List.getLast?_eq_getLast _ hd]
  intro hEq
  simp only [Option.map_some', Option.some.injEq] at hEq
  exact digitChar10_ne_zero
    (Nat.digits_lt_base (by norm_num) (List.getLast_mem hd))
    (Nat.getLast_digit_ne_zero 10 hn) hEq

theorem numPartOk_natChars (n : Nat) : numPartOk (natChars n) = true := by
  unfold numPartOk
  by_cases hn : n = 0
  · subst hn; decide
  · refine (Bool.and_eq_true _ _).mpr ⟨(Bool.and_eq_true _ _).mpr ⟨?_, ?_⟩, ?_⟩
    · simp [List.isEmpty_iff, natChars_ne_nil n]
    · rw [List.all_eq_true]
      intro c hc
      exact mem_natChars_isDigit n c hc
    · refine Bool.or_eq_true_iff.mpr (Or.inl ?_)
      simp only [Bool.not_eq_true', beq_eq_false_iff_ne, ne_eq]
      exact fun h => natChars_head_ne_zero n hn (by simpa using h)

theorem foldl_digits (L : List Nat) (hL : ∀ d ∈ L, d < 10) (a : Nat) :
    ((L.map digitChar10).reverse).foldl (fun x c => 10 * x + (c.toNat - 48)) a
      = a * 10 ^ L.length + Nat.ofDigits 10 L := by
  induction L generalizing a with
  | nil => simp [Nat.ofDigits]
  | cons d L ih =>
    simp only [List.map_cons, List.reverse_cons, List.foldl_append, List.foldl_cons,
      List.foldl_nil]
    rw [ih (fun x hx => hL x (List.mem_cons_of_mem d hx))]
    rw [digitChar10_toNat (hL d (List.mem_cons_self d L))]
    rw [Nat.ofDigits_cons, List.length_cons, pow_succ]
    ring_nf
    omega

theorem digitsVal_natChars (n : Nat) : digitsVal (natChars n) = n := by
  by_cases hn : n = 0
  · subst hn; decide
  · rw [natChars_eq n hn]
    unfold digitsVal
    rw [foldl_digits _ (fun d hd => Nat.digits_lt_base (by norm_num) hd) 0]
    simpa using Nat.ofDigits_digits 10 n

theorem dot_not_mem_natChars (n : Nat) : '.' ∉ natChars n := by
  intro h
  exact absurd (mem_natChars_isDigit n _ h) (by decide)

/-- The canonical `major.minor.patch` string of a version without prerelease
consists of digits and dots only. -/
theorem mem_core_str (M N P : Nat) :
    ∀ c ∈ natChars M ++ '.' :: (natChars N ++ '.' :: natChars P),
      c.isDigit = true ∨ c = '.' := by
  intro c hc
  simp only [List.mem_append, List.mem_cons] at hc
  rcases hc with h | h | h | h | h
  · exact Or.inl (mem_natChars_isDigit M c h)
  · exact Or.inr h
  · exact Or.inl (mem_natChars_isDigit N c h)
  · exact Or.inr h
  · exact Or.inl (mem_natChars_isDigit P c h)

/-- Parsing the canonical rendering of a prerelease-free version returns the
version itself. -/
theorem parse_canonical (M N P : Nat) :
    Version.parse (natChars M ++ '.' :: (natChars N ++ '.' :: natChars P))
      = some ⟨M, N, P, none⟩ := by
  have hplus : '+' ∉ natChars M ++ '.' :: (natChars N ++ '.' :: natChars P) := by
    intro h
    rcases mem_core_str M N P _ h with h1 | h1
    · exact absurd h1 (by decide)
    · exact absurd h1 (by decide)
  have hminus : '-' ∉ natChars M ++ '.' :: (natChars N ++ '.' :: natChars P) := by
    intro h
    rcases mem_core_str M N P _ h with h1 | h1
    · exact absurd h1 (by decide)
    · exact absurd h1 (by decide)
  have hsplit : splitOnChar '.' (natChars M ++ '.' :: (natChars N ++ '.' :: natChars P))
      = [natChars M, natChars N, natChars P] := by
    rw [splitOnChar_append _ _ _ (dot_not_mem_natChars M)]
    rw [splitOnChar_append _ _ _ (dot_not_mem_natChars N)]
    rw [splitOnChar_not_mem _ _ (dot_not_mem_natChars P)]
  simp only [Version.parse, splitFirst_not_mem _ _ hplus, splitFirst_not_mem _ _ hminus,
    hsplit]
  simp only [numPartOk_natChars, Bool.and_true, Bool.true_and, if_pos]
  rw [digitsVal_natChars, digitsVal_natChars, digitsVal_natChars]

/-- `str(v)` of a prerelease-free version is the canonical core string. -/
theorem str_of_no_prerelease (v : Version) (hv : v.prerelease = none) :
    v.str = natChars v.major ++ '.' :: (natChars v.minor ++ '.' :: natChars v.patch) := by
  unfold Version.str
  rw [hv]
  simp

/-! ### The comparison respects the `(major, minor, patch)` order -/

theorem mnpLE_refl (a : Version) : mnpLE a a := by unfold mnpLE; omega

theorem mnpLE_trans {a b c : Version} (h1 : mnpLE a b) (h2 : mnpLE b c) :
    mnpLE a c := by
  unfold mnpLE at *
  omega

theorem cmpCore_gt_mnpLE (a b : Version) : cmpCore a b = .gt → mnpLE b a := by
  unfold cmpCore mnpLE
  split_ifs <;> intro h <;> first
    | exact absurd h (by decide)
    | omega

theorem cmpCore_lt_mnpLE (a b : Version) : cmpCore a b = .lt → mnpLE a b := by
  unfold cmpCore mnpLE
  split_ifs <;> intro h <;> first
    | exact absurd h (by decide)
    | omega

theorem cmpCore_eq_mnp (a b : Version) : cmpCore a b = .eq →
    a.major = b.major ∧ a.minor = b.minor ∧ a.patch = b.patch := by
  unfold cmpCore
  split_ifs <;> intro h <;> first
    | exact absurd h (by decide)
    | omega

theorem cmp_gt_mnpLE (a b : Version) : Version.cmp a b = .gt → mnpLE b a := by
  intro hx
  unfold Version.cmp at hx
  cases h : cmpCore a b
  case lt => rw [h] at hx; exact Ordering.noConfusion hx
  case eq =>
    have := cmpCore_eq_mnp a b h
    unfold mnpLE
    omega
  case gt => exact cmpCore_gt_mnpLE a b h

theorem cmp_ngt_mnpLE (a b : Version) : Version.cmp a b ≠ .gt → mnpLE a b := by
  intro hx
  unfold Version.cmp at hx
  cases h : cmpCore a b
  case lt => exact cmpCore_lt_mnpLE a b h
  case eq =>
    have := cmpCore_eq_mnp a b h
    unfold mnpLE
    omega
  case gt => rw [h] at hx; exact absurd rfl hx

/-- Python `max` over a nonempty iteration: the result is one of the
elements and is `(major, minor, patch)`-maximal among them. -/
theorem maxVersion_fold_spec : ∀ (vs : List Version) (v : Version),
    (vs.foldl (fun best x => if Version.cmp x best = .gt then x else best) v) ∈ v :: vs ∧
      ∀ x ∈ v :: vs,
        mnpLE x (vs.foldl (fun best x => if Version.cmp x best = .gt then x else best) v) := by
  intro vs
  induction vs with
  | nil =>
    intro v
    constructor
    · exact List.mem_cons_self v []
    · intro x hx
      rcases List.mem_cons.mp hx with rfl | hx
      · exact mnpLE_refl x
      · cases hx
  | cons y vs ih =>
    intro v
    rw [List.foldl_cons]
    by_cases hc : Version.cmp y v = .gt
    · rw [if_pos hc]
      obtain ⟨hmem, hall⟩ := ih y
      constructor
      · rcases List.mem_cons.mp hmem with h | h
        · rw [h]; exact List.mem_cons_of_mem v (List.mem_cons_self y vs)
        · exact List.mem_cons_of_mem v (List.mem_cons_of_mem y h)
      · intro x hx
        rcases List.mem_cons.mp hx with h | hx
        · rw [h]
          exact mnpLE_trans (cmp_gt_mnpLE y v hc) (hall y (List.mem_cons_self y vs))
        · exact hall x hx
    · rw [if_neg hc]
      obtain ⟨hmem, hall⟩ := ih v
      constructor
      · rcases List.mem_cons.mp hmem with h | h
        · rw [h]; exact List.mem_cons_self v (y :: vs)
        · exact List.mem_cons_of_mem v (List.mem_cons_of_mem y h)
      · intro x hx
        rcases List.mem_cons.mp hx with h | hx
        · rw [h]; exact hall v (List.mem_cons_self v vs)
        · rcases List.mem_cons.mp hx with h | hx
          · rw [h]
            exact mnpLE_trans (cmp_ngt_mnpLE y v hc) (hall v (List.mem_cons_self v vs))
          · exact hall x (List.mem_cons_of_mem v hx)

theorem maxVersion_spec (l : List Version) (h : l ≠ []) :
    ∃ m, maxVersion l = some m ∧ m ∈ l ∧ ∀ v ∈ l, mnpLE v m := by
  match l, h with
  | v :: vs, _ =>
    exact ⟨_, rfl, (maxVersion_fold_spec vs v).1, (maxVersion_fold_spec vs v).2⟩

/-! ### The tag-scanning loop's invariants -/

theorem fpv_step_snd (vpre vsuf : List Char) (acc : List Version × List (List Char))
    (t : List Char) : (fpv_step vpre vsuf acc t).2 = insertU acc.2 t := by
  unfold fpv_step
  split
  · split <;> rfl
  · rfl

theorem fpv_foldl_snd (vpre vsuf : List Char) :
    ∀ (tags : List (List Char)) (acc : List Version × List (List Char)) (t : List Char),
      t ∈ (tags.foldl (fpv_step vpre vsuf) acc).2 ↔ t ∈ acc.2 ∨ t ∈ tags := by
  intro tags
  induction tags with
  | nil => intro acc t; simp
  | cons hd tl ih =>
    intro acc t
    rw [List.foldl_cons, ih, fpv_step_snd, mem_insertU]
    simp only [List.mem_cons]
    tauto

theorem fpv_foldl_fst (vpre vsuf : List Char) :
    ∀ (tags : List (List Char)) (acc : List Version × List (List Char)) (v : Version),
      v ∈ (tags.foldl (fpv_step vpre vsuf) acc).1 ↔
        v ∈ acc.1 ∨ ∃ t, t ∈ tags ∧ (vpre.isPrefixOf t && vsuf.isSuffixOf t) = true ∧
          Version.parse (extract_version t vpre vsuf) = some v := by
  intro tags
  induction tags with
  | nil => intro acc v; simp
  | cons hd tl ih =>
    intro acc v
    rw [List.foldl_cons, ih]
    by_cases hc : (vpre.isPrefixOf hd && vsuf.isSuffixOf hd) = true
    · cases hp : Version.parse (extract_version hd vpre vsuf) with
      | none =>
        have hstep : (fpv_step vpre vsuf acc hd).1 = acc.1 := by
          unfold fpv_step
          rw [if_pos hc, hp]
        rw [hstep]
        constructor
        · rintro (h | ⟨t, ht, hcond, hparse⟩)
          · exact Or.inl h
          · exact Or.inr ⟨t, List.mem_cons_of_mem hd ht, hcond, hparse⟩
        · rintro (h | ⟨t, ht, hcond, hparse⟩)
          · exact Or.inl h
          · rcases List.mem_cons.mp ht with rfl | ht'
            · rw [hp] at hparse; cases hparse
            · exact Or.inr ⟨t, ht', hcond, hparse⟩
      | some w =>
        have hstep : (fpv_step vpre vsuf acc hd).1 = insertU acc.1 w := by
          unfold fpv_step
          rw [if_pos hc, hp]
        rw [hstep]
        constructor
        · rintro (h | ⟨t, ht, hcond, hparse⟩)
          · rcases mem_insertU.mp h with h' | rfl
            · exact Or.inl h'
            · exact Or.inr ⟨hd, List.mem_cons_self hd tl, hc, hp⟩
          · exact Or.inr ⟨t, List.mem_cons_of_mem hd ht, hcond, hparse⟩
        · rintro (h | ⟨t, ht, hcond, hparse⟩)
          · exact Or.inl (mem_insertU.mpr (Or.inl h))
          · rcases List.mem_cons.mp ht with rfl | ht'
            · rw [hp] at hparse
              exact Or.inl (mem_insertU.mpr (Or.inr (Option.some.inj hparse).symm))
            · exact Or.inr ⟨t, ht', hcond, hparse⟩
    · have hstep : (fpv_step vpre vsuf acc hd).1 = acc.1 := by
        unfold fpv_step
        rw [if_neg hc]
      rw [hstep]
      constructor
      · rintro (h | ⟨t, ht, hcond, hparse⟩)
        · exact Or.inl h
        · exact Or.inr ⟨t, List.mem_cons_of_mem hd ht, hcond, hparse⟩
      · rintro (h | ⟨t, ht, hcond, hparse⟩)
        · exact Or.inl h
        · rcases List.mem_cons.mp ht with rfl | ht'
          · exact absurd hcond hc
          · exact Or.inr ⟨t, ht', hcond, hparse⟩

theorem mem_find_previous_versions (tags : List (List Char)) (vpre vsuf : List Char)
    (v : Version) :
    v ∈ (find_previous_versions tags vpre vsuf).1 ↔
      ∃ t, t ∈ tags ∧ (vpre.isPrefixOf t && vsuf.isSuffixOf t) = true ∧
        Version.parse (extract_version t vpre vsuf) = some v := by
  unfold find_previous_versions
  rw [fpv_foldl_fst]
  simp

theorem mem_find_all_tags (tags : List (List Char)) (vpre vsuf : List Char)
    (t : List Char) :
    t ∈ (find_previous_versions tags vpre vsuf).2 ↔ t ∈ tags := by
  unfold find_previous_versions
  rw [fpv_foldl_snd]
  simp

/-! ### Filter lemmas -/

theorem filter_versions_of_none (versions : List Version) (fmin : Option Nat) :
    filter_versions versions none fmin = versions := rfl

theorem mem_filter_versions_some (versions : List Version) (mj : Nat)
    (fmin : Option Nat) (v : Version) :
    v ∈ filter_versions versions (some mj) fmin ↔
      v ∈ versions ∧ v.major = mj ∧ ∀ mn, fmin = some mn → v.minor = mn := by
  unfold filter_versions
  rw [List.mem_filter]
  cases fmin with
  | none => simp
  | some mn => simp

theorem versions_ne_nil_of_filter (versions : List Version) (fmaj fmin : Option Nat)
    (h : filter_versions versions fmaj fmin ≠ []) : versions ≠ [] := by
  intro h0
  subst h0
  apply h
  cases fmaj <;> rfl

/-! ### The claims -/

/-- C1: for every input whose filtered version set is nonempty, the selected
next version is `bump_patch` of the maximum of the filtered set — the
maximum is a member of the filtered set that is `(major, minor, patch)`-
lexicographically above every member, and the selection keeps its major and
minor and raises its patch by one. -/
theorem C1_next_version_bumps_patch_of_max (tags : List (List Char))
    (vpre vsuf : List Char) (fmaj fmin : Option Nat)
    (h : filter_versions (find_previous_versions tags vpre vsuf).1 fmaj fmin ≠ []) :
    ∃ m,
      maxVersion (filter_versions (find_previous_versions tags vpre vsuf).1 fmaj fmin)
        = some m ∧
      m ∈ filter_versions (find_previous_versions tags vpre vsuf).1 fmaj fmin ∧
      (∀ v ∈ filter_versions (find_previous_versions tags vpre vsuf).1 fmaj fmin,
        mnpLE v m) ∧
      select_increased_version (find_previous_versions tags vpre vsuf).1
          (filter_versions (find_previous_versions tags vpre vsuf).1 fmaj fmin) fmaj fmin
        = m.bump_patch ∧
      m.bump_patch = ⟨m.major, m.minor, m.patch + 1, none⟩ := by
  obtain ⟨m, hmax, hmem, hall⟩ :=
    maxVersion_spec (filter_versions (find_previous_versions tags vpre vsuf).1 fmaj fmin) h
  have hvne : (find_previous_versions tags vpre vsuf).1 ≠ [] :=
    versions_ne_nil_of_filter _ _ _ h
  refine ⟨m, hmax, hmem, hall, ?_, rfl⟩
  unfold select_increased_version
  rw [if_neg (by simpa [List.isEmpty_iff] using hvne),
    if_neg (by simpa [List.isEmpty_iff] using h), hmax]

/-- C1 witness: the spec scenario `{v1.0.0, v1.1.0, v2.0.0}` with no filters:
the maximum is `2.0.0` and the selected next version is `2.0.1`. -/
theorem C1_witness :
    ∃ m,
      maxVersion (filter_versions
          (find_previous_versions [("v1.0.0").toList, ("v1.1.0").toList, ("v2.0.0").toList]
            (("v").toList) (("").toList)).1 none none)
        = some m ∧
      m ∈ filter_versions
          (find_previous_versions [("v1.0.0").toList, ("v1.1.0").toList, ("v2.0.0").toList]
            (("v").toList) (("").toList)).1 none none ∧
      (∀ v ∈ filter_versions
          (find_previous_versions [("v1.0.0").toList, ("v1.1.0").toList, ("v2.0.0").toList]
            (("v").toList) (("").toList)).1 none none, mnpLE v m) ∧
      select_increased_version
          (find_previous_versions [("v1.0.0").toList, ("v1.1.0").toList, ("v2.0.0").toList]
            (("v").toList) (("").toList)).1
          (filter_versions
            (find_previous_versions [("v1.0.0").toList, ("v1.1.0").toList, ("v2.0.0").toList]
              (("v").toList) (("").toList)).1 none none) none none
        = m.bump_patch ∧
      m.bump_patch = ⟨m.major, m.minor, m.patch + 1, none⟩ :=
  C1_next_version_bumps_patch_of_max
    [("v1.0.0").toList, ("v1.1.0").toList, ("v2.0.0").toList]
    (("v").toList) (("").toList) none none (by decide)

/-- C2: when no tag parses to a version (the version set is empty), the
selected next version is exactly `1.0.0`, whatever the filters are. -/
theorem C2_empty_version_set_gives_1_0_0 (tags : List (List Char))
    (vpre vsuf : List Char) (fmaj fmin : Option Nat)
    (h : (find_previous_versions tags vpre vsuf).1 = []) :
    select_increased_version (find_previous_versions tags vpre vsuf).1
        (filter_versions (find_previous_versions tags vpre vsuf).1 fmaj fmin) fmaj fmin
      = ⟨1, 0, 0, none⟩ := by
  rw [h]
  rfl

/-- C2 witness: one unparsable tag, with filters set. -/
theorem C2_witness :
    select_increased_version
        (find_previous_versions [("foo").toList] (("v").toList) (("").toList)).1
        (filter_versions
          (find_previous_versions [("foo").toList] (("v").toList) (("").toList)).1
          (some 2) (some 3)) (some 2) (some 3)
      = ⟨1, 0, 0, none⟩ :=
  C2_empty_version_set_gives_1_0_0 [("foo").toList] (("v").toList) (("").toList)
    (some 2) (some 3) (by decide)

/-- C3: when the version set is nonempty but the filtered set is empty, the
selected next version is `filter_major.(filter_minor or 0).0`. -/
theorem C3_empty_filtered_set_starts_new_line (tags : List (List Char))
    (vpre vsuf : List Char) (mj : Nat) (fmin : Option Nat)
    (h1 : (find_previous_versions tags vpre vsuf).1 ≠ [])
    (h2 : filter_versions (find_previous_versions tags vpre vsuf).1 (some mj) fmin = []) :
    select_increased_version (find_previous_versions tags vpre vsuf).1
        (filter_versions (find_previous_versions tags vpre vsuf).1 (some mj) fmin)
        (some mj) fmin
      = ⟨mj, fmin.getD 0, 0, none⟩ := by
  unfold select_increased_version
  rw [if_neg (by simpa [List.isEmpty_iff] using h1),
    if_pos (by simpa [List.isEmpty_iff] using h2)]
  cases fmin with
  | none => rfl
  | some k =>
    show Version.mk mj (if k = 0 then 0 else k) 0 none = Version.mk mj k 0 none
    by_cases hk : k = 0
    · subst hk; rfl
    · rw [if_neg hk]

/-- C3 witness: the spec scenario `{v1.0.0}` with `filter-major = 3`: the
next version is `3.0.0`. -/
theorem C3_witness :
    select_increased_version
        (find_previous_versions [("v1.0.0").toList] (("v").toList) (("").toList)).1
        (filter_versions
          (find_previous_versions [("v1.0.0").toList] (("v").toList) (("").toList)).1
          (some 3) none) (some 3) none
      = ⟨3, 0, 0, none⟩ :=
  C3_empty_filtered_set_starts_new_line [("v1.0.0").toList] (("v").toList)
    (("").toList) 3 none (by decide) (by decide)

/-- C4: when tag creation is requested and the computed tag name is already
among the existing tag names, the run fails: the collision is logged to
standard error, the exit code is 1, nothing is printed, no tag is created
and no push is attempted. -/
theorem C4_collision_fails_without_creating_or_pushing (tags : List (List Char))
    (vpre vsuf : List Char) (fmaj fmin : Option Nat) (snap : Bool)
    (h : computed_tag_name tags vpre vsuf fmaj fmin snap ∈ tags) :
    calculate_new_version tags vpre vsuf fmaj fmin false snap =
      { exitCode := 1, stdoutLine := none, createdTag := none,
        pushed := false, errorLogged := true } := by
  have hm : computed_tag_name tags vpre vsuf fmaj fmin snap
      ∈ (find_previous_versions tags vpre vsuf).2 :=
    (mem_find_all_tags tags vpre vsuf _).mpr h
  unfold calculate_new_version
  rw [if_pos (by decide), if_pos hm]

/-- C4 witness: with tags `{v1.0.0, v1.0-SNAPSHOT}` and snapshot mode on,
the computed name `v1.0-SNAPSHOT` collides and the run fails. -/
theorem C4_witness :
    calculate_new_version [("v1.0.0").toList, ("v1.0-SNAPSHOT").toList]
        (("v").toList) (("").toList) none none false true =
      { exitCode := 1, stdoutLine := none, createdTag := none,
        pushed := false, errorLogged := true } :=
  C4_collision_fails_without_creating_or_pushing
    [("v1.0.0").toList, ("v1.0-SNAPSHOT").toList] (("v").toList) (("").toList)
    none none true (by decide)

/-- C5 counterexample: the tag `vv1.0.0` with leading affix `v` and empty
trailing affix starts with the affix, yet the code's extraction deletes
every `v` — not only the leading one — so parsing is attempted on `1.0.0`
(which succeeds) instead of on the exact remainder `v1.0.0` (which would be
rejected). -/
theorem C5_counterexample :
    ((("v").toList.isPrefixOf (("vv1.0.0").toList)
        && (("").toList).isSuffixOf (("vv1.0.0").toList)) = true) ∧
    extract_version (("vv1.0.0").toList) (("v").toList) (("").toList) ≠
      strip_exact (("vv1.0.0").toList) (("v").toList) (("").toList) ∧
    Version.parse (extract_version (("vv1.0.0").toList) (("v").toList) (("").toList))
      = some ⟨1, 0, 0, none⟩ ∧
    Version.parse (strip_exact (("vv1.0.0").toList) (("v").toList) (("").toList))
      = none := by
  decide

/-- C5 (amended): the parse is attempted on the remainder obtained by
deleting every occurrence of the leading affix and then every occurrence of
the trailing affix from the tag name; when the leading affix's first
character occurs nowhere in the rest of the name and the trailing affix's
first character occurs nowhere in the middle, this agrees with stripping
exactly the leading and trailing affixes. -/
theorem C5_replace_extraction_agrees_when_no_clash (vpre mid vsuf : List Char)
    (h1 : ∀ c ∈ vpre.take 1, c ∉ mid ++ vsuf)
    (h2 : ∀ c ∈ vsuf.take 1, c ∉ mid) :
    extract_version (vpre ++ mid ++ vsuf) vpre vsuf = mid ∧
    strip_exact (vpre ++ mid ++ vsuf) vpre vsuf = mid :=
  ⟨extract_version_append vpre mid vsuf h1 h2, strip_exact_append vpre mid vsuf⟩

/-- C5 witness: `v` + `1.0.0` with no clash: both extractions give `1.0.0`. -/
theorem C5_witness :
    extract_version ((("v").toList) ++ (("1.0.0").toList) ++ (("").toList))
        (("v").toList) (("").toList) = ("1.0.0").toList ∧
    strip_exact ((("v").toList) ++ (("1.0.0").toList) ++ (("").toList))
        (("v").toList) (("").toList) = ("1.0.0").toList :=
  C5_replace_extraction_agrees_when_no_clash (("v").toList) (("1.0.0").toList)
    (("").toList) (by decide) (by decide)

/-- C6: a version belongs to the parsed version set exactly when some tag
name starts with the leading affix, ends with the trailing affix, and its
extracted remainder parses to that version; tags whose remainder does not
parse, and tags outside the affix pattern, contribute nothing, and a failed
parse does not stop the scan of the other tags. -/
theorem C6_version_set_membership (tags : List (List Char)) (vpre vsuf : List Char)
    (v : Version) :
    v ∈ (find_previous_versions tags vpre vsuf).1 ↔
      ∃ t, t ∈ tags ∧ (vpre.isPrefixOf t && vsuf.isSuffixOf t) = true ∧
        Version.parse (extract_version t vpre vsuf) = some v :=
  mem_find_previous_versions tags vpre vsuf v

/-- C7: with no major filter the filtered set is the whole version set (so a
minor filter alone has no effect); with a major filter, a version is kept
exactly when its major matches and, when a minor filter is set, its minor
matches too. -/
theorem C7_filter_semantics (versions : List Version) (fmin : Option Nat) :
    filter_versions versions none fmin = versions ∧
      ∀ mj v,
        v ∈ filter_versions versions (some mj) fmin ↔
          v ∈ versions ∧ v.major = mj ∧ ∀ mn, fmin = some mn → v.minor = mn :=
  ⟨rfl, fun mj v => mem_filter_versions_some versions mj fmin v⟩

/-- C8: with snapshot mode on (as invoked by the tool, the patch argument is
the literal `SNAPSHOT`), the rendered name is
`affix ++ major ++ "." ++ minor ++ "-SNAPSHOT" ++ affix` — no numeric patch,
always the `SNAPSHOT` marker; with it off, the rendered name is
`affix ++ major ++ "." ++ minor ++ "." ++ patch ++ affix`. -/
theorem C8_render_snapshot_and_plain (M N P : Nat) (vpre vsuf : List Char) :
    generate_version_name ⟨M, N, P, none⟩ vpre vsuf true (some (("SNAPSHOT").toList)) =
      vpre ++ natChars M ++ '.' :: natChars N ++ ("-SNAPSHOT").toList ++ vsuf ∧
    generate_version_name ⟨M, N, P, none⟩ vpre vsuf false (some (("SNAPSHOT").toList)) =
      vpre ++ natChars M ++ '.' :: natChars N ++ '.' :: natChars P ++ vsuf := by
  constructor
  · unfold generate_version_name
    rw [if_pos (by decide)]
  · unfold generate_version_name
    rw [if_neg (by simp)]
    simp [Version.str]

/-- C9 counterexample: with leading affix `1`, rendering `1.0.0` gives
`11.0.0`, and the code's `replace`-based stripping deletes every `1`,
leaving `.0.0`, which does not parse — the round trip does not return the
version. -/
theorem C9_counterexample :
    Version.parse (extract_version
        (generate_version_name ⟨1, 0, 0, none⟩ (("1").toList) (("").toList) false
          (some (("SNAPSHOT").toList)))
        (("1").toList) (("").toList)) = none ∧
    ¬ (Version.parse (extract_version
        (generate_version_name ⟨1, 0, 0, none⟩ (("1").toList) (("").toList) false
          (some (("SNAPSHOT").toList)))
        (("1").toList) (("").toList)) = some ⟨1, 0, 0, none⟩) := by
  decide

/-- C9 (amended): with snapshot mode off, rendering a prerelease-free
version and stripping the affixes as the code does (`replace`) parses back
to the version, provided the affixes' first characters occur nowhere in the
rendered version string (as with the usual digit-free affixes such as
`v`). -/
theorem C9_roundtrip_when_no_clash (M N P : Nat) (vpre vsuf : List Char)
    (h1 : ∀ c ∈ vpre.take 1, c ∉ Version.str ⟨M, N, P, none⟩ ++ vsuf)
    (h2 : ∀ c ∈ vsuf.take 1, c ∉ Version.str ⟨M, N, P, none⟩) :
    Version.parse (extract_version
        (generate_version_name ⟨M, N, P, none⟩ vpre vsuf false
          (some (("SNAPSHOT").toList))) vpre vsuf)
      = some ⟨M, N, P, none⟩ := by
  have hgen : generate_version_name ⟨M, N, P, none⟩ vpre vsuf false
      (some (("SNAPSHOT").toList)) = vpre ++ Version.str ⟨M, N, P, none⟩ ++ vsuf := by
    unfold generate_version_name
    rw [if_neg (by simp)]
  rw [hgen, extract_version_append _ _ _ h1 h2]
  rw [str_of_no_prerelease ⟨M, N, P, none⟩ rfl]
  exact parse_canonical M N P

/-- C9 witness: the round trip on `1.2.3` with affix `v`. -/
theorem C9_witness :
    Version.parse (extract_version
        (generate_version_name ⟨1, 2, 3, none⟩ (("v").toList) (("").toList) false
          (some (("SNAPSHOT").toList))) (("v").toList) (("").toList))
      = some ⟨1, 2, 3, none⟩ :=
  C9_roundtrip_when_no_clash 1 2 3 (("v").toList) (("").toList)
    (by decide) (by decide)

/-- C10: with the dry-run flag set, no collision check happens: the run
prints the computed name and exits 0 — even when that name is already among
the existing tags, as the concrete conjunct shows — and neither creates nor
pushes a tag. -/
theorem C10_dry_run_skips_collision_check (tags : List (List Char))
    (vpre vsuf : List Char) (fmaj fmin : Option Nat) (snap : Bool) :
    calculate_new_version tags vpre vsuf fmaj fmin true snap =
      { exitCode := 0,
        stdoutLine := some (computed_tag_name tags vpre vsuf fmaj fmin snap),
        createdTag := none, pushed := false, errorLogged := false } ∧
    calculate_new_version [("v1.0.0").toList, ("v1.0-SNAPSHOT").toList]
        (("v").toList) (("").toList) none none true true =
      { exitCode := 0, stdoutLine := some (("v1.0-SNAPSHOT").toList),
        createdTag := none, pushed := false, errorLogged := false } := by
  constructor
  · rfl
  · decide

end SV
